import Mathlib

/-!
Shallow embedding of the data-pipeline code of the deepfake-detection
repository (files `timm/data/dataset.py` and `timm/data/loader.py`),
together with theorems checking the specification claims against it.

Modelling conventions:
* Python strings are Lean `String` (lists of characters); `str.strip`,
  `str.split` and `str.lower` are implemented character-wise below so that
  every definition evaluates inside the kernel.
* The filesystem is passed in explicitly: an `os.walk` result is a list of
  `(directory relative path, file basenames)` entries, and a readable text
  file is an entry `(path, lines)` of an association list.
* `uint8` storage is `Nat` reduced modulo `2^8 = 256` at each write;
  tensors are lists (of rows, which are lists of values).
* Python exceptions are `Option`/`Except` error results.
* CPython `sorted` is a stable sort; it is modelled by Mathlib's
  `List.insertionSort`, which is also stable, so both denote the same list.
* The run-to-run nondeterminism of `set` iteration order (Python hashes of
  strings are randomized per process) is modelled by passing the distinct
  labels as an explicit list: each possible iteration order is one input.
-/

/-! ### String and path helpers (`os.path` fragments used by dataset.py) -/

/-- Whether a path is absolute (starts with the separator). -/
def isAbsPath (f : String) : Bool :=
  match f.toList with
  | c :: _ => c = '/'
  | [] => false

/-- Whether a path ends with the separator. -/
def endsWithSep (root : String) : Bool :=
  root.toList.getLast? = some '/'

/-- Model of `os.path.join root f` for the cases the code exercises:
an absolute second argument wins, an empty root is dropped, otherwise the
parts are joined with a single separator. -/
def pathJoin (root f : String) : String :=
  if isAbsPath f then f
  else if root = "" then f
  else if endsWithSep root then root ++ f
  else root ++ "/" ++ f

/-- Model of Python `str.strip()`: drop whitespace from both ends. -/
def pyStrip (s : String) : String :=
  String.mk (((s.toList.dropWhile Char.isWhitespace).reverse.dropWhile
    Char.isWhitespace).reverse)

/-- Split a character list at every occurrence of the separator; like
Python `str.split(sep)`, the empty input yields one empty part. -/
def splitChar (sep : Char) : List Char → List (List Char)
  | [] => [[]]
  | c :: cs =>
    let r := splitChar sep cs
    if c = sep then [] :: r
    else
      match r with
      | h :: t => (c :: h) :: t
      | [] => [[c]]

/-- Model of Python `str.split(',')`. -/
def pySplitComma (s : String) : List String :=
  (splitChar ',' s.toList).map String.mk

/-- Characters of the part of a path after the last separator, as in
`os.path.basename`. -/
def basenameCl (cs : List Char) : List Char :=
  cs.foldl (fun acc c => if c = '/' then [] else acc ++ [c]) []

/-- Model of `os.path.basename`. -/
def basenameOf (s : String) : String :=
  String.mk (basenameCl s.toList)

/-- Split a basename at its last dot, returning the part before the dot and
the extension starting with the dot, or `none` when there is no dot. -/
def lastDotSplit : List Char → Option (List Char × List Char)
  | [] => none
  | c :: cs =>
    match lastDotSplit cs with
    | some (p, e) => some (c :: p, e)
    | none => if c = '.' then some ([], '.' :: cs) else none

/-- Extension of a basename as computed by `os.path.splitext`: the suffix
from the last dot, except that a name whose characters before that dot are
all dots (for example `.jpg` or `..jpg`) has no extension. -/
def extOfCl (base : List Char) : List Char :=
  match lastDotSplit base with
  | none => []
  | some (p, e) => if p.any (fun c => c ≠ '.') then e else []

/-- Model of `os.path.splitext(f)[-1].lower()`: lower-cased extension of the
basename of `f`. -/
def extLower (f : String) : String :=
  String.mk ((extOfCl (basenameCl f.toList)).map Char.toLower)

/-- Substring relation on strings: `a` occurs contiguously inside `b`. -/
def substrOf (a b : String) : Prop :=
  ∃ s t, b.toList = s ++ a.toList ++ t

/-! ### Natural sort key (`natural_key` in dataset.py)

`natural_key(s)` is `[int(c) if c.isdigit() else c for c in
re.split(r'(\d+)', s.lower())]`: the lower-cased string is cut into an
alternating sequence of (possibly empty) non-digit chunks and maximal digit
runs, digit runs being converted to integers.  The resulting key list always
has a string chunk at every even position and an integer at every odd
position.  Python compares such keys lexicographically. -/

/-- One element of a natural sort key: a string chunk or an integer. -/
inductive KeyElem where
  | str : List Char → KeyElem
  | num : Nat → KeyElem
deriving DecidableEq

/-- Group a character list into maximal runs, each tagged with whether it is
a digit run. -/
def groupRuns : List Char → List (Bool × List Char)
  | [] => []
  | c :: cs =>
    match groupRuns cs with
    | (b, run) :: rest =>
      if c.isDigit = b then (b, c :: run) :: rest
      else (c.isDigit, [c]) :: (b, run) :: rest
    | [] => [(c.isDigit, [c])]

/-- Numeric value of a digit run, as `int` on a decimal string. -/
def digitsToNat (ds : List Char) : Nat :=
  ds.foldl (fun a c => a * 10 + (c.toNat - 48)) 0

/-- Convert the tagged runs into the `re.split(r'(\d+)', ...)` shape: string
chunks and integers alternate, beginning and ending with a (possibly empty)
string chunk. -/
def keyOfRuns : List (Bool × List Char) → List KeyElem
  | [] => [.str []]
  | [(false, s)] => [.str s]
  | (false, s) :: (true, ds) :: rest => .str s :: .num (digitsToNat ds) :: keyOfRuns rest
  | (false, s) :: (false, t) :: rest => .str s :: keyOfRuns ((false, t) :: rest)
  | (true, ds) :: rest => .str [] :: .num (digitsToNat ds) :: keyOfRuns rest

/-- Model of `natural_key`: key of the lower-cased string. -/
def naturalKey (s : String) : List KeyElem :=
  keyOfRuns (groupRuns (s.toList.map Char.toLower))

/-- Python's lexicographic `<` on lists (and strings): compare element-wise
with the given strict order, a strict prefix being smaller. -/
def lexLt {α : Type} [DecidableEq α] (elt : α → α → Bool) : List α → List α → Bool
  | _, [] => false
  | [], _ :: _ => true
  | a :: as, b :: bs => elt a b || (a = b && lexLt elt as bs)

/-- Strict order on characters by code point, as Python compares the
characters of a string. -/
def charLtB (a b : Char) : Bool := a < b

/-- Lexicographic strict order on character lists, the Python `<` on
strings. -/
def clLt : List Char → List Char → Bool := lexLt charLtB

/-- Strict order on key elements.  Python raises on an `int`/`str`
comparison; such comparisons never happen between two natural keys because
chunk kinds alternate identically, so the value chosen for the mixed cases
is irrelevant (integers are placed before strings). -/
def keyElemLt : KeyElem → KeyElem → Bool
  | .num a, .num b => a < b
  | .str a, .str b => clLt a b
  | .num _, .str _ => true
  | .str _, .num _ => false

/-- Lexicographic strict order on key lists, as Python compares lists. -/
def keyLt : List KeyElem → List KeyElem → Bool := lexLt keyElemLt

/-- The ordering `sorted(..., key=natural_key)` sorts by: not strictly
greater under the key order. -/
def natLe (a b : String) : Prop :=
  keyLt (naturalKey b) (naturalKey a) = false

instance : DecidableRel natLe := fun a b =>
  inferInstanceAs (Decidable (keyLt (naturalKey b) (naturalKey a) = false))

/-- The ordering of `sorted(images_and_targets, key=natural_key(filename))`
on (filename, target) pairs. -/
def sampleLe (p q : String × Nat) : Prop :=
  keyLt (naturalKey q.1) (naturalKey p.1) = false

instance : DecidableRel sampleLe := fun p q =>
  inferInstanceAs (Decidable (keyLt (naturalKey q.1) (naturalKey p.1) = false))

/-! ### Dataset enumeration (`find_images_and_targets`, `Dataset.__init__`) -/

/-- The supported image extensions, `IMG_EXTENSIONS` in dataset.py. -/
def IMG_EXTENSIONS : List String := [".png", ".jpg", ".jpeg"]

/-- The walk loop of `find_images_and_targets` with the default
`leaf_name_only=True`: for every walked directory (given by its path
relative to the root; the root itself is the entry with relative path `""`)
and every contained file whose lower-cased extension is supported, record
the joined file path and the label, which is the basename of the relative
directory path. -/
def imageEntries (walk : List (String × List String)) (root : String) :
    List (String × String) :=
  walk.flatMap (fun e =>
    e.2.filterMap (fun f =>
      if extLower f ∈ IMG_EXTENSIONS then
        some (pathJoin root (pathJoin e.1 f), basenameOf e.1)
      else none))

/-- Class-index construction of `find_images_and_targets` when
`class_to_idx is None`: `sorted(unique_labels, key=natural_key)` followed by
`{c: idx for idx, c in enumerate(sorted_labels)}`.  The argument is the set
of distinct labels in the (arbitrary) iteration order of the Python `set`. -/
def buildClassIndex (uniqueLabels : List String) : List (String × Nat) :=
  (List.insertionSort natLe uniqueLabels).enum.map (fun p => (p.2, p.1))

/-- The final `sorted(images_and_targets, key=natural_key(k[0]))` of
`find_images_and_targets` (the default `sort=True`). -/
def sortSamples (l : List (String × Nat)) : List (String × Nat) :=
  List.insertionSort sampleLe l

/-- Model of `find_images_and_targets(folder)` with no supplied class map:
enumerate files, build the class index from the distinct labels, pair each
filename with its class id, and sort by natural key of the filename.
`List.eraseDups` fixes one admissible iteration order of the Python `set`
(the order-dependence itself is studied via `buildClassIndex` directly). -/
def find_images_and_targets (walk : List (String × List String)) (root : String) :
    List (String × Nat) × List (String × Nat) :=
  let entries := imageEntries walk root
  let labels := entries.map (fun p => p.2)
  let class_to_idx := buildClassIndex labels.eraseDups
  let images_and_targets :=
    entries.map (fun p => (p.1, (class_to_idx.lookup p.2).getD 0))
  (sortSamples images_and_targets, class_to_idx)

/-- Model of `Dataset.__init__(root)` with no class map: enumerate and fail
with the `RuntimeError` message of the code when zero images were found. -/
def datasetInit (walk : List (String × List String)) (root : String) :
    Except String (List (String × Nat) × List (String × Nat)) :=
  let p := find_images_and_targets walk root
  if p.1.length = 0 then
    .error ("Found 0 images in subfolders of: " ++ root ++ "\n" ++
      "Supported image extensions are: " ++ String.intercalate "," IMG_EXTENSIONS)
  else .ok p

/-! ### Class maps (`load_class_map`, `load_class_map_v2`) -/

/-- The two failure modes of `load_class_map`: the `assert
os.path.exists(...)` (spec name ClassMapMissing) and the `assert False,
'Unsupported class map extension'` (spec name UnsupportedFormat). -/
inductive ClassMapError where
  | ClassMapMissing : ClassMapError
  | UnsupportedFormat : ClassMapError
deriving DecidableEq

/-- The dict comprehension `{v.strip(): k for k, v in enumerate(f)}` as an
association list in line order. -/
def classMapOfLines (lines : List String) : List (String × Nat) :=
  lines.enum.map (fun p => (pyStrip p.2, p.1))

/-- Model of `load_class_map(filename, root)`.  The readable files are given
as an association list from path to list of lines.  Existence is checked at
`filename` first and then at `os.path.join(root, filename)`; only a `.txt`
extension (of `filename`) is accepted. -/
def load_class_map (fs : List (String × List String)) (filename root : String) :
    Except ClassMapError (List (String × Nat)) :=
  match (match fs.lookup filename with
         | some c => some c
         | none => fs.lookup (pathJoin root filename)) with
  | none => .error .ClassMapMissing
  | some lines =>
    if extLower filename = ".txt" then .ok (classMapOfLines lines)
    else .error .UnsupportedFormat

/-- Model of `load_class_map_v2(class_names)`: split the string on commas,
strip each part, and enumerate. -/
def load_class_map_v2 (class_names : String) : List (String × Nat) :=
  let names := (pySplitComma class_names).map pyStrip
  names.enum.map (fun p => (p.2, p.1))

/-- Re-derive the label of an id from a class map: the first entry carrying
that id. -/
def labelOfId (m : List (String × Nat)) (i : Nat) : Option String :=
  (m.find? (fun p => p.2 == i)).map (fun p => p.1)

/-! ### Fast collation (`fast_collate` in loader.py)

`fast_collate` receives a list of `(payload, label)` tuples and dispatches
on the type of `batch[0][0]`: a tuple of arrays (the augmentation-split
case), a numpy array, or a torch tensor.  Byte arrays are modelled as
`List Nat`; storing into the `uint8` tensor reduces modulo 256.  Each
Python loop body does an indexed in-place write into a zero-initialized
tensor; the loops are modelled as a left fold over the list of writes,
each write carrying its target row index and a row transformation. -/

/-- The in-place `tensor[n] += v` on a `uint8` row: element-wise addition
reduced modulo 256. -/
def addInto (row v : List Nat) : List Nat :=
  List.zipWith (fun a b => (a + b) % 256) row v

/-- The in-place `tensor[n].copy_(v)` on a `uint8` row: the incoming values
are cast to `uint8` and overwrite the row. -/
def copyInto (_row v : List Nat) : List Nat :=
  v.map (fun x => x % 256)

/-- Perform a sequence of indexed in-place writes on a list: each write
replaces the element at its index by a function of the current element
(reading out of range yields the default `d`; writing out of range is a
no-op, matching `List.set`). -/
def applyWrites {α : Type} (d : α) (ws : List (Nat × (α → α))) (t : List α) : List α :=
  ws.foldl (fun t w => t.set w.1 (w.2 (t.getD w.1 d))) t

/-- The loop index pairs `(i, j)` of the nested loops
`for i in range(batch_size): for j in range(inner_tuple_size):`. -/
def splitLoopIdx (batch_size inner_tuple_size : Nat) : List (Nat × Nat) :=
  (List.range batch_size).flatMap (fun i =>
    (List.range inner_tuple_size).map (fun j => (i, j)))

/-- The tuple branch of `fast_collate`: flatten tuples of arrays into one
tensor of `batch_size * inner_tuple_size` rows, writing sample `i`'s `j`-th
array into row `i + j * batch_size` by `+=` on the zeroed row, and writing
sample `i`'s label into the same position of the zeroed target tensor.
`none` models the `IndexError` on an empty batch and the `assert` on a
tuple of deviating length. -/
def fast_collate_split (batch : List (List (List Nat) × Int)) :
    Option (List (List Nat) × List Int) :=
  match batch with
  | [] => none
  | b0 :: _ =>
    let batch_size := batch.length
    let inner_tuple_size := b0.1.length
    let flat_size := batch_size * inner_tuple_size
    if batch.all (fun b => b.1.length = inner_tuple_size) then
      let row_len := (b0.1.headD []).length
      let idx := splitLoopIdx batch_size inner_tuple_size
      let tensor := applyWrites []
        (idx.map (fun p => (p.1 + p.2 * batch_size,
          fun r => addInto r ((batch.getD p.1 b0).1.getD p.2 []))))
        (List.replicate flat_size (List.replicate row_len 0))
      let targets := applyWrites 0
        (idx.map (fun p => (p.1 + p.2 * batch_size,
          fun _ => (batch.getD p.1 b0).2)))
        (List.replicate flat_size 0)
      some (tensor, targets)
    else none

/-- The numpy-array branch of `fast_collate`: labels are collected directly
into the target tensor, and row `i` of the zeroed `uint8` tensor receives
sample `i`'s array by `+=`. -/
def fast_collate_np (batch : List (List Nat × Int)) :
    Option (List (List Nat) × List Int) :=
  match batch with
  | [] => none
  | b0 :: _ =>
    let batch_size := batch.length
    let targets : List Int := batch.map (fun b => b.2)
    let tensor := applyWrites []
      ((List.range batch_size).map (fun i =>
        (i, fun r => addInto r ((batch.getD i b0).1))))
      (List.replicate batch_size (List.replicate b0.1.length 0))
    some (tensor, targets)

/-- The torch-tensor branch of `fast_collate`: identical to the numpy
branch except that row `i` is written by `tensor[i].copy_(...)`, an
overwrite, instead of `+=`. -/
def fast_collate_tensor (batch : List (List Nat × Int)) :
    Option (List (List Nat) × List Int) :=
  match batch with
  | [] => none
  | b0 :: _ =>
    let batch_size := batch.length
    let targets : List Int := batch.map (fun b => b.2)
    let tensor := applyWrites []
      ((List.range batch_size).map (fun i =>
        (i, fun r => copyInto r ((batch.getD i b0).1))))
      (List.replicate batch_size (List.replicate b0.1.length 0))
    some (tensor, targets)

/-! ### Prefetch loop (`PrefetchLoader.__iter__` in loader.py)

The generator keeps a one-batch lag: on each underlying batch it first
queues the preparation (device transfer, cast, normalize, optional erase)
of that batch on the side stream, then yields the previously prepared
batch (except on the very first iteration), and after the loop it yields
the last prepared batch unconditionally.  Two views of the same control
flow are modelled: the list of yielded values, and the interleaved trace
of `prepare`/`yield` events. -/

/-- The loop body of `PrefetchLoader.__iter__` after the first iteration
has filled `input`/`target`: each remaining underlying batch is prepared,
the previous one is yielded, and the final prepared batch is yielded after
the loop. -/
def prefetchIterAux {β γ : Type} (process : β → γ) : List β → γ → List γ
  | [], prev => [prev]
  | b :: rest, prev => prev :: prefetchIterAux process rest (process b)

/-- The yielded values of `PrefetchLoader.__iter__` over an underlying
batch list.  On an empty underlying iterator the final `yield input`
reads a never-assigned variable and raises, modelled as `none`. -/
def prefetch_loader_iter {β γ : Type} (process : β → γ) : List β → Option (List γ)
  | [] => none
  | b :: rest => some (prefetchIterAux process rest (process b))

/-- Observable events of the prefetch generator: queueing the preparation
of underlying batch `i`, and yielding processed batch `i` to the consumer. -/
inductive PEvent where
  | prep : Nat → PEvent
  | yld : Nat → PEvent
deriving DecidableEq

/-- Extract the yielded batch index of an event, if it is a yield. -/
def yldIdx : PEvent → Option Nat
  | .yld i => some i
  | .prep _ => none

/-- Event trace of the loop once batch 0 is prepared: each further batch
`i` is prepared before the previous batch is yielded, and the last
prepared batch is yielded after the loop. -/
def prefetchEventsAux : List Nat → Nat → List PEvent
  | [], prev => [.yld prev]
  | i :: rest, prev => .prep i :: .yld prev :: prefetchEventsAux rest i

/-- Event trace of `PrefetchLoader.__iter__` over `n` underlying batches
(indices `0..n-1`); `none` models the raise on an empty iterator. -/
def prefetchEvents : Nat → Option (List PEvent)
  | 0 => none
  | n + 1 => some (.prep 0 :: prefetchEventsAux (List.range' 1 n) 0)

/-- The per-batch preparation of lines 85-92 of loader.py on a batch
`(input values, targets)`: the input is cast to floating point (modelled
exactly as rationals), mean-subtracted and std-divided element-wise, and
optionally passed through the erasing augmentation; the targets are only
transferred. -/
def prepareBatch (mean std : ℚ) (erase : Option (List ℚ → List ℚ))
    (b : List Nat × List Int) : List ℚ × List Int :=
  let inp := b.1.map (fun v => ((v : ℚ) - mean) / std)
  (match erase with | none => inp | some f => f inp, b.2)

/-! ### AugMix wrapper (`AugMixDataset.__getitem__` in dataset.py)

`__getitem__(i)` retrieves `x, y = self.dataset[i]` once, builds
`[normalize(x)]`, and appends `normalize(augmentation(x))` for each of the
remaining `num_splits - 1` splits.  The base dataset access and the
augmentation are effectful (file decode, random sampling), so both are
modelled as explicit state-passing functions; instantiating the state with
invocation counters makes "exactly once per access" provable. -/

/-- The loop `for _ in range(self.num_splits - 1): x_list.append(
self._normalize(self.augmentation(x)))`, threading the augmentation
state. -/
def augSplits {α σ : Type} (aug : α → σ → α × σ) (norm : α → α) (x : α) :
    Nat → σ → List α × σ
  | 0, c => ([], c)
  | n + 1, c =>
    let ac := aug x c
    let rest := augSplits aug norm x n ac.2
    (norm ac.1 :: rest.1, rest.2)

/-- Model of `AugMixDataset.__getitem__(i)`: one base dataset access, the
clean normalized split first, then the augmented splits.  The pair state
threads the base dataset effect and the augmentation effect separately. -/
def augmix_getitem {α L σ₁ σ₂ : Type} (ds : Nat → σ₁ → (α × L) × σ₁)
    (aug : α → σ₂ → α × σ₂) (norm : α → α) (num_splits : Nat) (i : Nat)
    (s : σ₁ × σ₂) : (List α × L) × (σ₁ × σ₂) :=
  let xy := ds i s.1
  let rest := augSplits aug norm xy.1.1 (num_splits - 1) s.2
  ((norm xy.1.1 :: rest.1, xy.1.2), (xy.2, rest.2))

/-! ### Helper lemmas: the lexicographic key order is a total preorder -/

theorem lexLt_irrefl {α : Type} [DecidableEq α] (elt : α → α → Bool)
    (h : ∀ a, elt a a = false) : ∀ l, lexLt elt l l = false := by
  intro l
  induction l with
  | nil => rfl
  | cons a as ih => simp [lexLt, h, ih]

theorem lexLt_trans {α : Type} [DecidableEq α] (elt : α → α → Bool)
    (h : ∀ a b c, elt a b = true → elt b c = true → elt a c = true) :
    ∀ l₁ l₂ l₃, lexLt elt l₁ l₂ = true → lexLt elt l₂ l₃ = true →
      lexLt elt l₁ l₃ = true := by
  intro l₁
  induction l₁ with
  | nil =>
    intro l₂ l₃ h₁ h₂
    cases l₂ with
    | nil => exact absurd h₁ (by simp [lexLt])
    | cons b bs =>
      cases l₃ with
      | nil => exact absurd h₂ (by simp [lexLt])
      | cons c cs => simp [lexLt]
  | cons a as ih =>
    intro l₂ l₃ h₁ h₂
    cases l₂ with
    | nil => exact absurd h₁ (by simp [lexLt])
    | cons b bs =>
      cases l₃ with
      | nil => exact absurd h₂ (by simp [lexLt])
      | cons c cs =>
        simp only [lexLt, Bool.or_eq_true, Bool.and_eq_true, decide_eq_true_eq] at h₁ h₂ ⊢
        rcases h₁ with h₁ | ⟨rfl, h₁⟩
        · rcases h₂ with h₂ | ⟨rfl, h₂⟩
          · exact Or.inl (h _ _ _ h₁ h₂)
          · exact Or.inl h₁
        · rcases h₂ with h₂ | ⟨rfl, h₂⟩
          · exact Or.inl h₂
          · exact Or.inr ⟨rfl, ih _ _ h₁ h₂⟩

theorem lexLt_trichotomy {α : Type} [DecidableEq α] (elt : α → α → Bool)
    (h : ∀ a b, elt a b = true ∨ a = b ∨ elt b a = true) :
    ∀ l₁ l₂, lexLt elt l₁ l₂ = true ∨ l₁ = l₂ ∨ lexLt elt l₂ l₁ = true := by
  intro l₁
  induction l₁ with
  | nil =>
    intro l₂
    cases l₂ with
    | nil => exact Or.inr (Or.inl rfl)
    | cons b bs => exact Or.inl (by simp [lexLt])
  | cons a as ih =>
    intro l₂
    cases l₂ with
    | nil => exact Or.inr (Or.inr (by simp [lexLt]))
    | cons b bs =>
      rcases h a b with hab | rfl | hba
      · exact Or.inl (by simp [lexLt, hab])
      · rcases ih bs with hlt | rfl | hgt
        · exact Or.inl (by simp [lexLt, hlt])
        · exact Or.inr (Or.inl rfl)
        · exact Or.inr (Or.inr (by simp [lexLt, hgt]))
      · exact Or.inr (Or.inr (by simp [lexLt, hba]))

theorem charLtB_irrefl (a : Char) : charLtB a a = false := by
  simp [charLtB]

theorem charLtB_trans (a b c : Char) (h₁ : charLtB a b = true)
    (h₂ : charLtB b c = true) : charLtB a c = true := by
  simp only [charLtB, decide_eq_true_eq] at h₁ h₂ ⊢
  exact lt_trans h₁ h₂

theorem charLtB_trichotomy (a b : Char) :
    charLtB a b = true ∨ a = b ∨ charLtB b a = true := by
  simp only [charLtB, decide_eq_true_eq]
  exact lt_trichotomy a b

theorem keyElemLt_irrefl (a : KeyElem) : keyElemLt a a = false := by
  cases a with
  | str s => simpa [keyElemLt] using lexLt_irrefl charLtB charLtB_irrefl s
  | num n => simp [keyElemLt]

theorem keyElemLt_trans (a b c : KeyElem) (h₁ : keyElemLt a b = true)
    (h₂ : keyElemLt b c = true) : keyElemLt a c = true := by
  cases a with
  | str s₁ =>
    cases b with
    | str s₂ =>
      cases c with
      | str s₃ =>
        simp only [keyElemLt] at h₁ h₂ ⊢
        exact lexLt_trans charLtB charLtB_trans s₁ s₂ s₃ h₁ h₂
      | num n₃ => exact absurd h₂ (by simp [keyElemLt])
    | num n₂ => exact absurd h₁ (by simp [keyElemLt])
  | num n₁ =>
    cases b with
    | str s₂ =>
      cases c with
      | str s₃ => simp [keyElemLt]
      | num n₃ => exact absurd h₂ (by simp [keyElemLt])
    | num n₂ =>
      cases c with
      | str s₃ => simp [keyElemLt]
      | num n₃ =>
        simp only [keyElemLt, decide_eq_true_eq] at h₁ h₂ ⊢
        omega

theorem keyElemLt_trichotomy (a b : KeyElem) :
    keyElemLt a b = true ∨ a = b ∨ keyElemLt b a = true := by
  cases a with
  | str s₁ =>
    cases b with
    | str s₂ =>
      rcases lexLt_trichotomy charLtB charLtB_trichotomy s₁ s₂ with h | rfl | h
      · exact Or.inl (by simpa [keyElemLt] using h)
      · exact Or.inr (Or.inl rfl)
      · exact Or.inr (Or.inr (by simpa [keyElemLt] using h))
    | num n₂ => exact Or.inr (Or.inr (by simp [keyElemLt]))
  | num n₁ =>
    cases b with
    | str s₂ => exact Or.inl (by simp [keyElemLt])
    | num n₂ =>
      rcases Nat.lt_trichotomy n₁ n₂ with h | rfl | h
      · exact Or.inl (by simp [keyElemLt, h])
      · exact Or.inr (Or.inl rfl)
      · exact Or.inr (Or.inr (by simp [keyElemLt, h]))

theorem keyLt_irrefl (x : List KeyElem) : keyLt x x = false :=
  lexLt_irrefl keyElemLt keyElemLt_irrefl x

theorem keyLt_trans (x y z : List KeyElem) (h₁ : keyLt x y = true)
    (h₂ : keyLt y z = true) : keyLt x z = true :=
  lexLt_trans keyElemLt keyElemLt_trans x y z h₁ h₂

theorem keyLt_trichotomy (x y : List KeyElem) :
    keyLt x y = true ∨ x = y ∨ keyLt y x = true :=
  lexLt_trichotomy keyElemLt keyElemLt_trichotomy x y

theorem keyLt_eq_false_antisymm (x y : List KeyElem) (h₁ : keyLt x y = false)
    (h₂ : keyLt y x = false) : x = y := by
  rcases keyLt_trichotomy x y with h | h | h
  · rw [h₁] at h; exact absurd h (by simp)
  · exact h
  · rw [h₂] at h; exact absurd h (by simp)

theorem keyLe_total {α : Type} (K : α → List KeyElem) (a b : α) :
    keyLt (K b) (K a) = false ∨ keyLt (K a) (K b) = false := by
  cases h₁ : keyLt (K b) (K a) with
  | false => exact Or.inl rfl
  | true =>
    cases h₂ : keyLt (K a) (K b) with
    | false => exact Or.inr rfl
    | true =>
      have := keyLt_trans (K a) (K b) (K a) h₂ h₁
      rw [keyLt_irrefl] at this
      exact absurd this (by simp)

theorem keyLe_trans {α : Type} (K : α → List KeyElem) (a b c : α)
    (h₁ : keyLt (K b) (K a) = false) (h₂ : keyLt (K c) (K b) = false) :
    keyLt (K c) (K a) = false := by
  cases h : keyLt (K c) (K a) with
  | false => rfl
  | true =>
    exfalso
    rcases keyLt_trichotomy (K c) (K b) with hcb | hcb | hcb
    · rw [h₂] at hcb; exact absurd hcb (by simp)
    · rw [hcb] at h; rw [h] at h₁; exact absurd h₁ (by simp)
    · have := keyLt_trans (K b) (K c) (K a) hcb h
      rw [h₁] at this; exact absurd this (by simp)

theorem natLe_total (a b : String) : natLe a b ∨ natLe b a := by
  unfold natLe
  exact keyLe_total naturalKey a b

theorem natLe_trans (a b c : String) (h₁ : natLe a b) (h₂ : natLe b c) :
    natLe a c := by
  unfold natLe at h₁ h₂ ⊢
  exact keyLe_trans naturalKey a b c h₁ h₂

theorem sampleLe_total (p q : String × Nat) : sampleLe p q ∨ sampleLe q p := by
  unfold sampleLe
  exact keyLe_total (fun x : String × Nat => naturalKey x.1) p q

theorem sampleLe_trans (p q w : String × Nat) (h₁ : sampleLe p q)
    (h₂ : sampleLe q w) : sampleLe p w := by
  unfold sampleLe at h₁ h₂ ⊢
  exact keyLe_trans (fun x : String × Nat => naturalKey x.1) p q w h₁ h₂

/-! ### Helper lemmas: a stable sort is determined up to local antisymmetry -/

theorem sorted_perm_eq {α : Type} {r : α → α → Prop} :
    ∀ {l₁ l₂ : List α}, l₁.Sorted r → l₂.Sorted r → l₁.Perm l₂ →
      (∀ a ∈ l₁, ∀ b ∈ l₁, r a b → r b a → a = b) → l₁ = l₂ := by
  intro l₁
  induction l₁ with
  | nil =>
    intro l₂ _ _ hperm _
    exact (hperm.symm.eq_nil).symm
  | cons a t₁ ih =>
    intro l₂ h₁ h₂ hperm hanti
    cases l₂ with
    | nil => exact absurd hperm.eq_nil (by simp)
    | cons b t₂ =>
      have hab : a = b := by
        by_cases hne : a = b
        · exact hne
        · have hbmem : b ∈ a :: t₁ := hperm.mem_iff.mpr (by simp)
          have hamem : a ∈ b :: t₂ := hperm.mem_iff.mp (by simp)
          have hbt : b ∈ t₁ := by
            rcases List.mem_cons.mp hbmem with h | h
            · exact absurd h.symm hne
            · exact h
          have hat : a ∈ t₂ := by
            rcases List.mem_cons.mp hamem with h | h
            · exact absurd h hne
            · exact h
          have hrab : r a b := (List.sorted_cons.mp h₁).1 b hbt
          have hrba : r b a := (List.sorted_cons.mp h₂).1 a hat
          exact hanti a (by simp) b (List.mem_cons.mpr (Or.inr hbt)) hrab hrba
      subst hab
      have htperm : t₁.Perm t₂ := hperm.cons_inv
      have : t₁ = t₂ := by
        refine ih (List.sorted_cons.mp h₁).2 (List.sorted_cons.mp h₂).2 htperm ?_
        intro x hx y hy
        exact hanti x (List.mem_cons.mpr (Or.inr hx)) y (List.mem_cons.mpr (Or.inr hy))
      rw [this]

theorem insertionSort_eq_of_perm {α : Type} (r : α → α → Prop) [DecidableRel r]
    (htot : ∀ a b, r a b ∨ r b a) (htr : ∀ a b c, r a b → r b c → r a c)
    {l₁ l₂ : List α} (hperm : l₁.Perm l₂)
    (hanti : ∀ a ∈ l₁, ∀ b ∈ l₁, r a b → r b a → a = b) :
    List.insertionSort r l₁ = List.insertionSort r l₂ := by
  haveI : IsTotal α r := ⟨htot⟩
  haveI : IsTrans α r := ⟨htr⟩
  refine sorted_perm_eq (List.sorted_insertionSort r l₁)
    (List.sorted_insertionSort r l₂)
    (((List.perm_insertionSort r l₁).trans hperm).trans
      (List.perm_insertionSort r l₂).symm) ?_
  intro a ha b hb
  exact hanti a ((List.mem_insertionSort r).mp ha) b ((List.mem_insertionSort r).mp hb)

/-! ### Helper lemmas: enumerated association lists -/

theorem lookup_enumFrom_swap {α : Type} [DecidableEq α] :
    ∀ (l : List α) (k j : Nat) (hnd : l.Nodup) (hj : j < l.length),
      ((l.enumFrom k).map (fun p => (p.2, p.1))).lookup (l.get ⟨j, hj⟩) =
        some (k + j) := by
  intro l
  induction l with
  | nil => intro k j _ hj; exact absurd hj (by simp)
  | cons x t ih =>
    intro k j hnd hj
    cases j with
    | zero => simp [List.enumFrom, List.lookup]
    | succ j =>
      have hx : x ∉ t := (List.nodup_cons.mp hnd).1
      have hmem : t.get ⟨j, by simpa using hj⟩ ∈ t := List.get_mem t j _
      have hne : (t.get ⟨j, by simpa using hj⟩ == x) = false := by
        rw [beq_eq_false_iff_ne]
        intro h
        exact hx (h ▸ hmem)
      have := ih (k + 1) j (List.nodup_cons.mp hnd).2 (by simpa using hj)
      simp only [List.enumFrom, List.map_cons, List.get_cons_succ, List.lookup, hne]
      rw [this]
      congr 1
      omega

theorem find_id_enumFrom {α β : Type} [DecidableEq β] (g : α → β) :
    ∀ (l : List α) (k i : Nat) (hi : i < l.length),
      ((l.enumFrom k).map (fun p => (g p.2, p.1))).find?
        (fun q => q.2 == k + i) = some (g (l.get ⟨i, hi⟩), k + i) := by
  intro l
  induction l with
  | nil => intro k i hi; exact absurd hi (by simp)
  | cons x t ih =>
    intro k i hi
    cases i with
    | zero => simp [List.enumFrom, List.find?]
    | succ i =>
      have hne : (k == k + (i + 1)) = false := by
        rw [beq_eq_false_iff_ne]; omega
      have harith : k + (i + 1) = (k + 1) + i := by omega
      rw [harith]
      have := ih (k + 1) i (by simpa using hi)
      simp only [List.enumFrom, List.map_cons, List.find?, List.get_cons_succ]
      rw [show ((k == k + 1 + i) = false) by rw [beq_eq_false_iff_ne]; omega]
      exact this

theorem enum_swap_map_snd {α : Type} (l : List α) :
    ((l.enum.map (fun p => (p.2, p.1))).map Prod.snd) = List.range l.length := by
  rw [List.map_map]
  have h : (Prod.snd ∘ fun p : Nat × α => (p.2, p.1)) = Prod.fst := rfl
  rw [h, List.enum_map_fst]

/-! ### Helper lemmas: indexed in-place writes -/

theorem applyWrites_length {α : Type} (d : α) :
    ∀ (ws : List (Nat × (α → α))) (t : List α),
      (applyWrites d ws t).length = t.length := by
  intro ws
  induction ws with
  | nil => intro t; rfl
  | cons w rest ih =>
    intro t
    simp only [applyWrites, List.foldl_cons] at ih ⊢
    rw [ih, List.length_set]

theorem applyWrites_getElem_of_ne {α : Type} (d : α) :
    ∀ (ws : List (Nat × (α → α))) (t : List α) (n : Nat),
      (∀ w ∈ ws, w.1 ≠ n) → (applyWrites d ws t)[n]? = t[n]? := by
  intro ws
  induction ws with
  | nil => intro t n _; rfl
  | cons w rest ih =>
    intro t n h
    simp only [applyWrites, List.foldl_cons] at ih ⊢
    rw [ih _ n (fun x hx => h x (List.mem_cons.mpr (Or.inr hx))),
      List.getElem?_set_ne (h w (List.mem_cons.mpr (Or.inl rfl)))]

theorem applyWrites_cons {α : Type} (d : α) (w : Nat × (α → α))
    (ws : List (Nat × (α → α))) (t : List α) :
    applyWrites d (w :: ws) t = applyWrites d ws (t.set w.1 (w.2 (t.getD w.1 d))) :=
  rfl

theorem applyWrites_getElem_of_mem {α : Type} (d : α) :
    ∀ (ws : List (Nat × (α → α))) (n : Nat) (f : α → α),
      (ws.map Prod.fst).Nodup → (n, f) ∈ ws →
      ∀ (t : List α) (r : α), t[n]? = some r →
        (applyWrites d ws t)[n]? = some (f r) := by
  intro ws
  induction ws with
  | nil => intro n f _ hmem; exact absurd hmem (by simp)
  | cons w rest ih =>
    intro n f hnd hmem t r hr
    have hlt : n < t.length := by
      by_contra hge
      rw [List.getElem?_eq_none (by omega)] at hr
      exact absurd hr (by simp)
    rw [List.map_cons] at hnd
    have hhead : w.1 ∉ rest.map Prod.fst := (List.nodup_cons.mp hnd).1
    have htail : (rest.map Prod.fst).Nodup := (List.nodup_cons.mp hnd).2
    rcases List.mem_cons.mp hmem with heq | hmem
    · have hw1 : w.1 = n := by rw [← heq]
      have hrest : ∀ x ∈ rest, x.1 ≠ n := by
        intro x hx hxn
        exact hhead (hw1 ▸ hxn ▸ List.mem_map.mpr ⟨x, hx, rfl⟩)
      rw [applyWrites_cons, applyWrites_getElem_of_ne d rest _ n hrest, ← heq]
      have hgd : t.getD n d = r := by
        rw [List.getD_eq_getElem?_getD, hr]; rfl
      rw [hgd, List.getElem?_set_self hlt]
    · have hwne : w.1 ≠ n := by
        intro hwn
        exact hhead (hwn ▸ List.mem_map.mpr ⟨(n, f), hmem, rfl⟩)
      rw [applyWrites_cons]
      have hr2 : (t.set w.1 (w.2 (t.getD w.1 d)))[n]? = some r := by
        rw [List.getElem?_set_ne hwne, hr]
      exact ih n f htail hmem _ r hr2

/-- An element fetched with `getD` inside bounds is a member. -/
theorem getD_mem {α : Type} {l : List α} {i : Nat} (d : α) (h : i < l.length) :
    l.getD i d ∈ l := by
  rw [List.getD_eq_getElem?_getD, List.getElem?_eq_getElem h]
  exact List.getElem_mem h

/-- Adding a byte-range row into a zeroed `uint8` row reproduces the row. -/
theorem addInto_replicate_zero :
    ∀ (v : List Nat) (n : Nat), v.length = n → (∀ x ∈ v, x < 256) →
      addInto (List.replicate n 0) v = v := by
  intro v
  induction v with
  | nil => intro n _ _; simp [addInto]
  | cons x xs ih =>
    intro n hlen hbyte
    cases n with
    | zero => exact absurd hlen (by simp)
    | succ n =>
      simp only [List.replicate, addInto, List.zipWith_cons_cons, Nat.zero_add]
      have h1 : x % 256 = x := Nat.mod_eq_of_lt (hbyte x (by simp))
      have h2 : List.zipWith (fun a b => (a + b) % 256) (List.replicate n 0) xs = xs :=
        ih n (by simpa using hlen) (fun y hy => hbyte y (by simp [hy]))
      rw [h1, h2]

/-- Copying a byte-range row reproduces the row. -/
theorem copyInto_bytes (r v : List Nat) (hbyte : ∀ x ∈ v, x < 256) :
    copyInto r v = v := by
  simp only [copyInto]
  rw [List.map_congr_left (fun x hx => Nat.mod_eq_of_lt (hbyte x hx))]
  exact List.map_id' v

/-! ### Helper lemmas: the interleaved index map of the split collation -/

theorem mem_splitLoopIdx {N K i k : Nat} (hi : i < N) (hk : k < K) :
    (i, k) ∈ splitLoopIdx N K :=
  List.mem_flatMap.mpr ⟨i, List.mem_range.mpr hi,
    List.mem_map.mpr ⟨k, List.mem_range.mpr hk, rfl⟩⟩

theorem splitIdx_lt {N K i k : Nat} (hi : i < N) (hk : k < K) :
    i + k * N < N * K := by
  have h2 : N + k * N = (k + 1) * N := by rw [Nat.succ_mul, Nat.add_comm]
  have h3 : (k + 1) * N ≤ K * N := Nat.mul_le_mul_right N (by omega)
  have h4 : K * N = N * K := Nat.mul_comm K N
  omega

theorem splitLoopIdx_index_nodup (N K : Nat) :
    ((splitLoopIdx N K).map (fun p => p.1 + p.2 * N)).Nodup := by
  unfold splitLoopIdx
  rw [List.map_flatMap, List.nodup_flatMap]
  constructor
  · intro i hi
    rw [List.map_map]
    refine List.Nodup.map ?_ (List.nodup_range K)
    intro j₁ j₂ hj
    have hN : 0 < N := Nat.pos_of_ne_zero (by
      intro h0
      rw [h0] at hi
      exact absurd hi (by simp))
    simp only [Function.comp] at hj
    have : j₁ * N = j₂ * N := by omega
    exact Nat.eq_of_mul_eq_mul_right hN this
  · rw [List.pairwise_iff_get]
    intro a b hab
    simp only [Function.onFun, List.get_eq_getElem, List.getElem_range]
    intro x hx₁ hx₂
    have ha : (a : Nat) < N := by
      have := a.isLt
      simpa using this
    have hb : (b : Nat) < N := by
      have := b.isLt
      simpa using this
    rw [List.map_map, List.mem_map] at hx₁ hx₂
    obtain ⟨j₁, _, hj₁⟩ := hx₁
    obtain ⟨j₂, _, hj₂⟩ := hx₂
    simp only [Function.comp] at hj₁ hj₂
    have hmod : ((a : Nat) + j₁ * N) % N = ((b : Nat) + j₂ * N) % N := by
      rw [hj₁, hj₂]
    rw [Nat.add_mul_mod_self_right, Nat.add_mul_mod_self_right,
      Nat.mod_eq_of_lt ha, Nat.mod_eq_of_lt hb] at hmod
    have : (a : Nat) < (b : Nat) := hab
    omega

/-! ### Helper lemmas: prefetch loop and trace -/

theorem prefetchIterAux_eq {β γ : Type} (process : β → γ) :
    ∀ (l : List β) (prev : γ),
      prefetchIterAux process l prev = prev :: l.map process := by
  intro l
  induction l with
  | nil => intro prev; rfl
  | cons b rest ih =>
    intro prev
    simp only [prefetchIterAux, List.map_cons]
    rw [ih]

theorem prefetchEventsAux_filterMap_yld :
    ∀ (l : List Nat) (prev : Nat),
      (prefetchEventsAux l prev).filterMap yldIdx = prev :: l := by
  intro l
  induction l with
  | nil => intro prev; rfl
  | cons i rest ih =>
    intro prev
    simp only [prefetchEventsAux, List.filterMap_cons, yldIdx]
    rw [ih]

theorem prefetchEventsAux_last :
    ∀ (l : List Nat) (prev : Nat), ∃ pre,
      prefetchEventsAux l prev = pre ++ [.yld (l.getLastD prev)] := by
  intro l
  induction l with
  | nil => intro prev; exact ⟨[], rfl⟩
  | cons i rest ih =>
    intro prev
    obtain ⟨pre, hpre⟩ := ih i
    refine ⟨.prep i :: .yld prev :: pre, ?_⟩
    simp only [prefetchEventsAux, List.getLastD_cons, hpre, List.cons_append]

theorem range'_getLastD : ∀ (m s d : Nat), (List.range' s (m + 1)).getLastD d = s + m := by
  intro m
  induction m with
  | zero => intro s d; rfl
  | succ m ih =>
    intro s d
    rw [List.range'_succ, List.getLastD_cons, ih (s + 1) s]
    omega

theorem range'_one_getLastD (m : Nat) : (List.range' 1 m).getLastD 0 = m := by
  cases m with
  | zero => rfl
  | succ m =>
    rw [range'_getLastD m 1 0]
    omega

/-! ### Helper lemmas: augmentation splits -/

theorem augSplits_counter {α : Type} (A : Nat → α → α) (norm : α → α) (x : α) :
    ∀ (n c : Nat),
      augSplits (fun x c => (A c x, c + 1)) norm x n c =
        ((List.range' c n).map (fun k => norm (A k x)), c + n) := by
  intro n
  induction n with
  | zero => intro c; rfl
  | succ n ih =>
    intro c
    simp only [augSplits, List.range'_succ, List.map_cons]
    rw [ih (c + 1)]
    simp only [Prod.mk.injEq]
    exact ⟨trivial, by omega⟩

/-! ### Claim theorems -/

/-- C2: for every set of distinct class label strings discovered during
enumeration (no externally supplied class map), the class index assigns
dense zero-based integer ids by the natural sort order of the labels
(embedded digit runs comparing as integers): every discovered label gets an
id, a label strictly below another in the natural-key order gets the
strictly smaller id, the assigned ids are exactly `0, 1, ..., n-1`, and in
particular the label set containing class1, class10, class2 is assigned ids
in the order class1, class2, class10. -/
theorem claim_C2_natural_order (labels : List String) (hnd : labels.Nodup) :
    (∀ a ∈ labels, ∃ ia, (buildClassIndex labels).lookup a = some ia) ∧
    (∀ a ∈ labels, ∀ b ∈ labels, ∀ ia ib,
      (buildClassIndex labels).lookup a = some ia →
      (buildClassIndex labels).lookup b = some ib →
      keyLt (naturalKey a) (naturalKey b) = true → ia < ib) ∧
    (buildClassIndex labels).map Prod.snd = List.range labels.length ∧
    buildClassIndex ["class1", "class10", "class2"] =
      [("class1", 0), ("class2", 1), ("class10", 2)] := by
  haveI : IsTotal String natLe := ⟨natLe_total⟩
  haveI : IsTrans String natLe := ⟨natLe_trans⟩
  have hperm : (List.insertionSort natLe labels).Perm labels :=
    List.perm_insertionSort natLe labels
  have hnds : (List.insertionSort natLe labels).Nodup := hperm.symm.nodup hnd
  have hsorted : List.Sorted natLe (List.insertionSort natLe labels) :=
    List.sorted_insertionSort natLe labels
  have hlookup : ∀ (j : Nat) (hj : j < (List.insertionSort natLe labels).length),
      (buildClassIndex labels).lookup ((List.insertionSort natLe labels).get ⟨j, hj⟩) =
        some j := by
    intro j hj
    have h := lookup_enumFrom_swap (List.insertionSort natLe labels) 0 j hnds hj
    rw [Nat.zero_add] at h
    exact h
  refine ⟨?_, ?_, ?_, by decide⟩
  · intro a ha
    obtain ⟨⟨j, hj⟩, hget⟩ :=
      List.mem_iff_get.mp ((List.mem_insertionSort natLe).mpr ha)
    exact ⟨j, hget ▸ hlookup j hj⟩
  · intro a ha b hb ia ib hla hlb hlt
    obtain ⟨⟨ja, hja⟩, hgeta⟩ :=
      List.mem_iff_get.mp ((List.mem_insertionSort natLe).mpr ha)
    obtain ⟨⟨jb, hjb⟩, hgetb⟩ :=
      List.mem_iff_get.mp ((List.mem_insertionSort natLe).mpr hb)
    have h2a : ia = ja := by
      have h2 := hgeta ▸ hlookup ja hja
      rw [hla] at h2
      exact Option.some_inj.mp h2
    have h2b : ib = jb := by
      have h2 := hgetb ▸ hlookup jb hjb
      rw [hlb] at h2
      exact Option.some_inj.mp h2
    by_contra hge
    have hge2 : jb ≤ ja := by omega
    cases Nat.eq_or_lt_of_le hge2 with
    | inl heq =>
      subst heq
      have hab : a = b := by rw [← hgeta, ← hgetb]
      subst hab
      rw [keyLt_irrefl] at hlt
      exact absurd hlt (by simp)
    | inr hlt2 =>
      have hle : natLe b a := by
        have hpw := List.pairwise_iff_get.mp hsorted ⟨jb, hjb⟩ ⟨ja, hja⟩
          (Fin.mk_lt_mk.mpr hlt2)
        rw [hgeta, hgetb] at hpw
        exact hpw
      unfold natLe at hle
      rw [hle] at hlt
      exact absurd hlt (by simp)
  · have h := enum_swap_map_snd (List.insertionSort natLe labels)
    have hlen : (List.insertionSort natLe labels).length = labels.length :=
      hperm.length_eq
    rw [hlen] at h
    exact h

/-- C2 witness: the theorem applied to the concrete label set of the claim. -/
theorem claim_C2_natural_order_witness :
    buildClassIndex ["class1", "class10", "class2"] =
      [("class1", 0), ("class2", 1), ("class10", 2)] :=
  (claim_C2_natural_order ["class1", "class10", "class2"] (by decide)).2.2.2

/-- C7 counterexample: the class index is NOT independent of the iteration
order of the label set.  The distinct labels a1 and a01 share one natural
key (leading zeros vanish when the digit run is read as an integer), so the
stable sort keeps them in set-iteration order, and the two possible
iteration orders of the same two-label set produce different class-to-id
mappings. -/
theorem claim_C7_counterexample :
    List.Perm ["a1", "a01"] ["a01", "a1"] ∧
    (["a1", "a01"] : List String).Nodup ∧
    naturalKey "a1" = naturalKey "a01" ∧
    buildClassIndex ["a1", "a01"] ≠ buildClassIndex ["a01", "a1"] := by
  refine ⟨?_, ?_, ?_, ?_⟩
  · decide
  · decide
  · decide
  · decide

/-- C7 amended: enumerating the same tree twice yields identical
class-to-id mappings and identical sorted sample orderings PROVIDED the
natural key is injective on the labels (respectively on the sample
filenames): under that proviso the result does not depend on the
set-iteration (or walk) order, being the same for any two permutations of
the same labels or samples. -/
theorem claim_C7_amended (l₁ l₂ : List String) (p₁ p₂ : List (String × Nat))
    (hl : l₁.Perm l₂)
    (hinjl : ∀ a ∈ l₁, ∀ b ∈ l₁, naturalKey a = naturalKey b → a = b)
    (hp : p₁.Perm p₂)
    (hinjp : ∀ x ∈ p₁, ∀ y ∈ p₁, naturalKey x.1 = naturalKey y.1 → x = y) :
    buildClassIndex l₁ = buildClassIndex l₂ ∧ sortSamples p₁ = sortSamples p₂ := by
  constructor
  · unfold buildClassIndex
    have hsort : List.insertionSort natLe l₁ = List.insertionSort natLe l₂ := by
      refine insertionSort_eq_of_perm natLe natLe_total natLe_trans hl ?_
      intro a ha b hb hab hba
      unfold natLe at hab hba
      exact hinjl a ha b hb (keyLt_eq_false_antisymm _ _ hba hab)
    rw [hsort]
  · unfold sortSamples
    refine insertionSort_eq_of_perm sampleLe sampleLe_total sampleLe_trans hp ?_
    intro x hx y hy hxy hyx
    unfold sampleLe at hxy hyx
    exact hinjp x hx y hy (keyLt_eq_false_antisymm _ _ hyx hxy)

/-- C7 witness: the amended theorem applied to concrete permuted inputs
whose labels and filenames have injective natural keys. -/
theorem claim_C7_amended_witness :
    buildClassIndex ["b", "a2"] = buildClassIndex ["a2", "b"] ∧
    sortSamples [("x.jpg", 0), ("y.jpg", 1)] = sortSamples [("y.jpg", 1), ("x.jpg", 0)] :=
  claim_C7_amended ["b", "a2"] ["a2", "b"]
    [("x.jpg", 0), ("y.jpg", 1)] [("y.jpg", 1), ("x.jpg", 0)]
    (by decide) (by decide) (by decide) (by decide)

/-- C4: for every walked tree in which zero files carry a supported
extension (.png/.jpg/.jpeg, case-insensitive), constructing the filesystem
Dataset fails at construction (the constructor returns the error, so no
retrieval is ever attempted), and the error message contains both the
attempted root path and the supported extension set. -/
theorem claim_C4_empty_index (walk : List (String × List String)) (root : String)
    (hempty : ∀ e ∈ walk, ∀ f ∈ e.2, extLower f ∉ IMG_EXTENSIONS) :
    ∃ msg, datasetInit walk root = .error msg ∧ substrOf root msg ∧
      substrOf (String.intercalate "," IMG_EXTENSIONS) msg := by
  have hentries : imageEntries walk root = [] := by
    unfold imageEntries
    rw [List.flatMap_eq_nil_iff]
    intro e he
    rw [List.filterMap_eq_nil_iff]
    intro f hf
    rw [if_neg (hempty e he f hf)]
  have himg : (find_images_and_targets walk root).1 = [] := by
    unfold find_images_and_targets
    rw [hentries]
    rfl
  refine ⟨"Found 0 images in subfolders of: " ++ root ++ "\n" ++
    "Supported image extensions are: " ++ String.intercalate "," IMG_EXTENSIONS,
    ?_, ?_, ?_⟩
  · simp only [datasetInit]
    rw [himg]
    rfl
  · exact ⟨("Found 0 images in subfolders of: ").toList,
      ("\n" ++ "Supported image extensions are: " ++
        String.intercalate "," IMG_EXTENSIONS).toList, by simp⟩
  · exact ⟨("Found 0 images in subfolders of: " ++ root ++ "\n" ++
      "Supported image extensions are: ").toList, [], by simp⟩

/-- C4 witness: the theorem applied to a concrete walk containing only
unsupported files. -/
theorem claim_C4_empty_index_witness :
    ∃ msg, datasetInit [("", ["readme.txt"]), ("cats", ["notes.md"])] "/data" =
      .error msg ∧ substrOf "/data" msg ∧
      substrOf (String.intercalate "," IMG_EXTENSIONS) msg :=
  claim_C4_empty_index [("", ["readme.txt"]), ("cats", ["notes.md"])] "/data"
    (by decide)

/-- C5: `load_class_map(filename, root)` fails if and only if either the
file exists at neither the given path nor the root-relative path (and then
with ClassMapMissing), or the file is found but the filename's extension is
not `.txt` (and then with UnsupportedFormat); when it succeeds it returns
the mapping whose entry `i` is the stripped line `i` mapped to `i`. -/
theorem claim_C5_load_class_map (fs : List (String × List String))
    (filename root : String) :
    ((load_class_map fs filename root = .error .ClassMapMissing) ↔
      (fs.lookup filename = none ∧ fs.lookup (pathJoin root filename) = none)) ∧
    ((load_class_map fs filename root = .error .UnsupportedFormat) ↔
      (((fs.lookup filename).isSome ∨ (fs.lookup (pathJoin root filename)).isSome) ∧
        extLower filename ≠ ".txt")) ∧
    ((∃ e, load_class_map fs filename root = .error e) ↔
      ((fs.lookup filename = none ∧ fs.lookup (pathJoin root filename) = none) ∨
        extLower filename ≠ ".txt")) ∧
    (∀ m, load_class_map fs filename root = .ok m →
      ∃ lines, (fs.lookup filename = some lines ∨
          fs.lookup (pathJoin root filename) = some lines) ∧
        m = classMapOfLines lines ∧
        ∀ i (hi : i < lines.length),
          m[i]? = some (pyStrip (lines.get ⟨i, hi⟩), i)) := by
  have hget : ∀ (lines : List String) (i : Nat) (hi : i < lines.length),
      (classMapOfLines lines)[i]? = some (pyStrip (lines.get ⟨i, hi⟩), i) := by
    intro lines i hi
    unfold classMapOfLines
    rw [List.getElem?_map, List.getElem?_enum, List.getElem?_eq_getElem hi]
    rfl
  unfold load_class_map
  cases h₁ : fs.lookup filename with
  | some lines =>
    by_cases hx : extLower filename = ".txt"
    · simp only [hx, if_pos rfl, h₁]
      refine ⟨by simp, by simp, by simp, ?_⟩
      intro m hm
      refine ⟨lines, Or.inl rfl, ?_, ?_⟩
      · exact (Except.ok.injEq _ _ ▸ hm).symm
      · intro i hi
        have hmeq : m = classMapOfLines lines := by
          cases hm
          rfl
        rw [hmeq]
        exact hget lines i hi
    · simp only [h₁, if_neg hx]
      refine ⟨by simp, ?_, ?_, by simp⟩
      · simp [hx]
      · simp [hx]
  | none =>
    cases h₂ : fs.lookup (pathJoin root filename) with
    | some lines =>
      by_cases hx : extLower filename = ".txt"
      · simp only [h₁, h₂, if_pos hx]
        refine ⟨by simp, by simp [hx], by simp [hx], ?_⟩
        intro m hm
        have hmeq : m = classMapOfLines lines := by
          injection hm with h
          exact h.symm
        refine ⟨lines, Or.inr rfl, hmeq, ?_⟩
        intro i hi
        rw [hmeq]
        exact hget lines i hi
      · simp only [h₁, h₂]
        refine ⟨by simp [hx], by simp [hx], by simp [hx], by simp [hx]⟩
    | none =>
      simp only [h₁, h₂]
      exact ⟨by simp, by simp, by simp, by simp⟩

/-- C5 witness: the theorem applied to a concrete filesystem exercising the
missing-file and bad-extension failures. -/
theorem claim_C5_load_class_map_witness :
    load_class_map [("map.csv", ["a"])] "missing.txt" "root" =
      .error .ClassMapMissing ∧
    ((load_class_map [("map.csv", ["a"])] "map.csv" "" = .error .UnsupportedFormat) ↔
      ((([(("map.csv" : String), ["a"])].lookup ("map.csv" : String)).isSome ∨
        (([(("map.csv" : String), ["a"])].lookup (pathJoin "" "map.csv")).isSome)) ∧
        extLower "map.csv" ≠ ".txt")) :=
  ⟨(claim_C5_load_class_map [("map.csv", ["a"])] "missing.txt" "root").1.mpr
    (by decide),
   (claim_C5_load_class_map [("map.csv", ["a"])] "map.csv" "").2.1⟩

/-- C8: loading a class map (a `.txt` file with one label per line, or a
comma-separated class list string) and re-deriving labels from ids
round-trips: assuming the stripped labels are distinct (so that the Python
dict keeps all of them), the label re-derived for id `i` is exactly the
stripped label at position `i` of the original input order. -/
theorem claim_C8_class_map_roundtrip (lines : List String) (s : String) :
    ((lines.map pyStrip).Nodup →
      ∀ i (hi : i < lines.length),
        labelOfId (classMapOfLines lines) i = some (pyStrip (lines.get ⟨i, hi⟩))) ∧
    (((pySplitComma s).map pyStrip).Nodup →
      ∀ i (hi : i < ((pySplitComma s).map pyStrip).length),
        labelOfId (load_class_map_v2 s) i =
          some (((pySplitComma s).map pyStrip).get ⟨i, hi⟩)) := by
  constructor
  · intro _hnd i hi
    have h := find_id_enumFrom pyStrip lines 0 i hi
    rw [Nat.zero_add] at h
    unfold labelOfId classMapOfLines
    rw [List.enum_eq_enumFrom, h]
    rfl
  · intro _hnd i hi
    have h := find_id_enumFrom (fun x : String => x) ((pySplitComma s).map pyStrip)
      0 i hi
    rw [Nat.zero_add] at h
    unfold labelOfId
    simp only [load_class_map_v2]
    rw [List.enum_eq_enumFrom]
    have h2 : (((((pySplitComma s).map pyStrip).enumFrom 0).map
        (fun p => (p.2, p.1))).find? (fun q => q.2 == i)) =
        some (((pySplitComma s).map pyStrip).get ⟨i, hi⟩, i) := h
    rw [h2]
    rfl

/-- C8 witness: the theorem applied to a concrete class-map file and a
concrete comma-separated class list. -/
theorem claim_C8_class_map_roundtrip_witness :
    labelOfId (classMapOfLines ["a", " b "]) 1 = some "b" ∧
    labelOfId (load_class_map_v2 "x, y") 0 = some "x" :=
  ⟨(claim_C8_class_map_roundtrip ["a", " b "] "x, y").1 (by decide) 1 (by decide),
   (claim_C8_class_map_roundtrip ["a", " b "] "x, y").2 (by decide) 0 (by decide)⟩

/-- C6: `AugMixDataset.__getitem__(i)` with split count K retrieves the
base sample exactly once (the base-access counter of the instrumented
dataset ends at 1), returns the K-tuple whose first element is
`normalize(x)` and whose remaining K-1 elements are `normalize` of the
augmentation re-invoked freshly per extra split (the augmentation counter
ends at K-1, and split `k` sees the k-th invocation), with the label
returned unchanged. -/
theorem claim_C6_augmix_getitem (α L : Type) (f : Nat → α) (g : Nat → L)
    (A : Nat → α → α) (norm : α → α) (K i : Nat) :
    augmix_getitem (fun j c => ((f j, g j), c + 1)) (fun x c => (A c x, c + 1))
      norm K i (0, 0) =
      ((norm (f i) :: (List.range (K - 1)).map (fun k => norm (A k (f i))), g i),
        (1, K - 1)) := by
  simp only [augmix_getitem]
  rw [augSplits_counter A norm (f i) (K - 1) 0]
  rw [← List.range_eq_range']
  simp

/-- C3: for every underlying iterator producing n >= 2 batches, the
prefetch loop yields exactly n batches, in order, each being the prepared
(device-transferred, cast, normalized, optionally erased) version of the
corresponding underlying batch; the trace begins with the preparation of
batch 0, then the preparation of batch 1, and only then the yield of batch
0 (the first yield happens after the second preparation has begun), and the
very last event is the yield of batch n-1 with nothing queued after it. -/
theorem claim_C3_prefetch_pipeline (n : Nat) (hn : 2 ≤ n) :
    (∃ evs, prefetchEvents n = some evs ∧
      evs.filterMap yldIdx = List.range n ∧
      evs.take 3 = [.prep 0, .prep 1, .yld 0] ∧
      ∃ pre, evs = pre ++ [.yld (n - 1)]) ∧
    (∀ (β : Type) (process : β → β) (batches : List β), batches.length = n →
      prefetch_loader_iter process batches = some (batches.map process)) ∧
    (∀ (mean std : ℚ) (erase : Option (List ℚ → List ℚ))
        (bs : List (List Nat × List Int)), bs.length = n →
      prefetch_loader_iter (prepareBatch mean std erase) bs =
        some (bs.map (prepareBatch mean std erase))) := by
  have hgen : ∀ (β γ : Type) (process : β → γ) (batches : List β),
      batches.length = n →
      prefetch_loader_iter process batches = some (batches.map process) := by
    intro β γ process batches hlen
    cases batches with
    | nil =>
      exfalso
      rw [List.length_nil] at hlen
      omega
    | cons b rest =>
      simp only [prefetch_loader_iter, List.map_cons]
      rw [prefetchIterAux_eq]
  obtain ⟨m, rfl⟩ : ∃ m, n = m + 2 := ⟨n - 2, by omega⟩
  refine ⟨⟨.prep 0 :: prefetchEventsAux (List.range' 1 (m + 1)) 0, rfl, ?_, ?_, ?_⟩,
    fun β process batches hlen => hgen β β process batches hlen,
    fun mean std erase bs hlen => hgen _ _ _ bs hlen⟩
  · simp only [List.filterMap_cons, yldIdx]
    rw [prefetchEventsAux_filterMap_yld, List.range_eq_range']
    simp [List.range'_succ]
  · rw [List.range'_succ]
    rfl
  · obtain ⟨pre, hpre⟩ := prefetchEventsAux_last (List.range' 1 (m + 1)) 0
    rw [range'_one_getLastD (m + 1)] at hpre
    refine ⟨.prep 0 :: pre, ?_⟩
    rw [hpre]
    rfl

/-- C3 witness: the theorem applied to two concrete underlying batches. -/
theorem claim_C3_prefetch_pipeline_witness :
    prefetch_loader_iter (fun x : Nat => x + 1) [10, 20] = some [11, 21] ∧
    (∃ evs, prefetchEvents 2 = some evs ∧
      evs.take 3 = [.prep 0, .prep 1, .yld 0]) :=
  ⟨(claim_C3_prefetch_pipeline 2 (by decide)).2.1 Nat (fun x => x + 1) [10, 20] rfl,
   by
    obtain ⟨evs, h1, _, h3, _⟩ := (claim_C3_prefetch_pipeline 2 (by decide)).1
    exact ⟨evs, h1, h3⟩⟩

/-- C10: iterating the prefetch loop over an empty underlying iterator does
not yield an empty sequence but fails (the unconditional final yield reads
a never-assigned variable), so at least one underlying batch is required;
with exactly one underlying batch, exactly that one processed batch is
yielded. -/
theorem claim_C10_prefetch_empty_and_single :
    ∀ (β : Type) (process : β → β) (b : β),
      prefetch_loader_iter process ([] : List β) = none ∧
      prefetchEvents 0 = none ∧
      prefetch_loader_iter process [b] = some [process b] ∧
      (∀ (mean std : ℚ) (erase : Option (List ℚ → List ℚ))
          (bb : List Nat × List Int),
        prefetch_loader_iter (prepareBatch mean std erase) [bb] =
          some [prepareBatch mean std erase bb]) :=
  fun β process b => ⟨rfl, rfl, rfl, fun mean std erase bb => rfl⟩

/-- C1: for every batch of N samples whose payloads are K-tuples of
byte-range arrays of one shape, `fast_collate` (tuple branch) returns a
data tensor of N*K rows in which the row at index `i + k*N` equals the
k-th array of sample i, and a label tensor in which the entry at index
`i + k*N` equals sample i's label for every k: labels are replicated per
augmentation slot, not per original position. -/
theorem claim_C1_fast_collate_split (batch : List (List (List Nat) × Int))
    (b0 : List (List Nat) × Int) (rest : List (List (List Nat) × Int))
    (hb : batch = b0 :: rest)
    (htuple : ∀ b ∈ batch, b.1.length = b0.1.length)
    (hrow : ∀ b ∈ batch, ∀ v ∈ b.1, v.length = (b0.1.headD []).length)
    (hbyte : ∀ b ∈ batch, ∀ v ∈ b.1, ∀ x ∈ v, x < 256) :
    ∃ T L, fast_collate_split batch = some (T, L) ∧
      T.length = batch.length * b0.1.length ∧
      L.length = batch.length * b0.1.length ∧
      ∀ i k (hi : i < batch.length) (hk : k < b0.1.length),
        T[i + k * batch.length]? = some ((batch.getD i b0).1.getD k []) ∧
        L[i + k * batch.length]? = some ((batch.getD i b0).2) := by
  subst hb
  have hall : ((b0 :: rest).all (fun b => b.1.length = b0.1.length)) = true :=
    List.all_eq_true.mpr (fun x hx => decide_eq_true (htuple x hx))
  simp only [fast_collate_split]
  rw [if_pos hall]
  refine ⟨_, _, rfl, ?_, ?_, ?_⟩
  · rw [applyWrites_length, List.length_replicate]
  · rw [applyWrites_length, List.length_replicate]
  · intro i k hi hk
    have hmemb : (b0 :: rest).getD i b0 ∈ (b0 :: rest) := getD_mem b0 hi
    have hkb : k < ((b0 :: rest).getD i b0).1.length := by
      rw [htuple _ hmemb]
      exact hk
    have hmemv : ((b0 :: rest).getD i b0).1.getD k [] ∈ ((b0 :: rest).getD i b0).1 :=
      getD_mem [] hkb
    have hvlen : (((b0 :: rest).getD i b0).1.getD k []).length =
        (b0.1.headD []).length := hrow _ hmemb _ hmemv
    have hvbyte : ∀ x ∈ ((b0 :: rest).getD i b0).1.getD k [], x < 256 :=
      hbyte _ hmemb _ hmemv
    have hn : i + k * (b0 :: rest).length <
        (b0 :: rest).length * b0.1.length := splitIdx_lt hi hk
    constructor
    · have hndT : ((((splitLoopIdx (b0 :: rest).length b0.1.length).map
          (fun p => (p.1 + p.2 * (b0 :: rest).length,
            fun r => addInto r (((b0 :: rest).getD p.1 b0).1.getD p.2 [])))).map
          Prod.fst)).Nodup := by
        rw [List.map_map]
        exact splitLoopIdx_index_nodup (b0 :: rest).length b0.1.length
      have hmemw : ((i + k * (b0 :: rest).length : Nat),
          (fun r => addInto r (((b0 :: rest).getD i b0).1.getD k []))) ∈
          (splitLoopIdx (b0 :: rest).length b0.1.length).map
            (fun p => (p.1 + p.2 * (b0 :: rest).length,
              fun r => addInto r (((b0 :: rest).getD p.1 b0).1.getD p.2 []))) :=
        List.mem_map.mpr ⟨(i, k), mem_splitLoopIdx hi hk, rfl⟩
      have hinit : (List.replicate ((b0 :: rest).length * b0.1.length)
          (List.replicate (b0.1.headD []).length 0))[i + k * (b0 :: rest).length]? =
          some (List.replicate (b0.1.headD []).length 0) := by
        rw [List.getElem?_replicate, if_pos hn]
      have h := applyWrites_getElem_of_mem [] _ _ _ hndT hmemw _ _ hinit
      rw [h, addInto_replicate_zero (((b0 :: rest).getD i b0).1.getD k [])
        (b0.1.headD []).length hvlen hvbyte]
    · have hndL : ((((splitLoopIdx (b0 :: rest).length b0.1.length).map
          (fun p => (p.1 + p.2 * (b0 :: rest).length,
            fun _ : Int => ((b0 :: rest).getD p.1 b0).2))).map Prod.fst)).Nodup := by
        rw [List.map_map]
        exact splitLoopIdx_index_nodup (b0 :: rest).length b0.1.length
      have hmemw : ((i + k * (b0 :: rest).length : Nat),
          ((fun _ => ((b0 :: rest).getD i b0).2) : Int → Int)) ∈
          (splitLoopIdx (b0 :: rest).length b0.1.length).map
            (fun p => (p.1 + p.2 * (b0 :: rest).length,
              fun _ : Int => ((b0 :: rest).getD p.1 b0).2)) :=
        List.mem_map.mpr ⟨(i, k), mem_splitLoopIdx hi hk, rfl⟩
      have hinit : (List.replicate ((b0 :: rest).length * b0.1.length)
          (0 : Int))[i + k * (b0 :: rest).length]? = some 0 := by
        rw [List.getElem?_replicate, if_pos hn]
      have h := applyWrites_getElem_of_mem (0 : Int) _ _ _ hndL hmemw _ _ hinit
      rw [h]

/-- C1 witness: the theorem applied to a concrete batch of N=2 samples with
K=3 splits; row 2 = 0 + 1*2 holds sample 0's split 1, with sample 0's
label. -/
theorem claim_C1_fast_collate_split_witness :
    ∃ T L, fast_collate_split [([[1], [2], [3]], 7), ([[4], [5], [6]], 9)] =
      some (T, L) ∧ T[2]? = some [2] ∧ L[2]? = some 7 := by
  obtain ⟨T, L, hcol, _, _, hpt⟩ :=
    claim_C1_fast_collate_split [([[1], [2], [3]], 7), ([[4], [5], [6]], 9)]
      ([[1], [2], [3]], 7) [([[4], [5], [6]], 9)] rfl (by decide) (by decide)
      (by decide)
  have h := hpt 0 1 (by decide) (by decide)
  exact ⟨T, L, hcol, h.1, h.2⟩

/-- C9 counterexample: the torch-tensor branch of `fast_collate` writes a
row with `copy_`, which overwrites the current row, not with the `+=`
addition of the numpy branch: on a row currently holding 5 the two writes
produce different contents, so "writes by explicit addition ... for both
numpy-array and tensor payloads" is false of the tensor branch. -/
theorem claim_C9_counterexample :
    copyInto [5] [1] ≠ addInto [5] [1] ∧
    copyInto [5] [1] = [1] ∧ addInto [5] [1] = [6] := by
  refine ⟨?_, ?_, ?_⟩
  · decide
  · decide
  · decide

/-- C9 amended: in the plain (non-tuple) collation case over byte-range
fixed-shape payloads, the numpy branch accumulates each sample's array by
`+=` into row i of the zero-initialized uint8 tensor while the torch-tensor
branch overwrites row i via `copy_`; in both branches the resulting tensor
is exactly the stack of the sample arrays in order and the label tensor is
a direct copy of the N labels. -/
theorem claim_C9_amended (batch : List (List Nat × Int)) (b0 : List Nat × Int)
    (rest : List (List Nat × Int)) (hb : batch = b0 :: rest)
    (hshape : ∀ b ∈ batch, b.1.length = b0.1.length)
    (hbytes : ∀ b ∈ batch, ∀ x ∈ b.1, x < 256) :
    fast_collate_np batch =
      some (batch.map (fun b => b.1), batch.map (fun b => b.2)) ∧
    fast_collate_tensor batch =
      some (batch.map (fun b => b.1), batch.map (fun b => b.2)) := by
  subst hb
  have hnd : (((List.range (b0 :: rest).length).map
      (fun i => ((i : Nat), fun r => addInto r (((b0 :: rest).getD i b0).1)))).map
      Prod.fst).Nodup := by
    rw [List.map_map]
    have hcomp : (Prod.fst ∘ fun i : Nat =>
        ((i : Nat), fun r => addInto r (((b0 :: rest).getD i b0).1))) =
        fun i : Nat => i := rfl
    rw [hcomp, List.map_id']
    exact List.nodup_range _
  have hndc : (((List.range (b0 :: rest).length).map
      (fun i => ((i : Nat), fun r => copyInto r (((b0 :: rest).getD i b0).1)))).map
      Prod.fst).Nodup := by
    rw [List.map_map]
    have hcomp : (Prod.fst ∘ fun i : Nat =>
        ((i : Nat), fun r => copyInto r (((b0 :: rest).getD i b0).1))) =
        fun i : Nat => i := rfl
    rw [hcomp, List.map_id']
    exact List.nodup_range _
  constructor
  · simp only [fast_collate_np]
    have htensor : applyWrites []
        ((List.range (b0 :: rest).length).map
          (fun i => ((i : Nat), fun r => addInto r (((b0 :: rest).getD i b0).1))))
        (List.replicate (b0 :: rest).length (List.replicate b0.1.length 0)) =
        (b0 :: rest).map (fun b => b.1) := by
      apply List.ext_getElem?
      intro n
      by_cases hn : n < (b0 :: rest).length
      · have hmemb : (b0 :: rest).getD n b0 ∈ b0 :: rest := getD_mem b0 hn
        have hmemw : ((n : Nat),
            (fun r => addInto r (((b0 :: rest).getD n b0).1))) ∈
            (List.range (b0 :: rest).length).map
              (fun i => ((i : Nat),
                fun r => addInto r (((b0 :: rest).getD i b0).1))) :=
          List.mem_map.mpr ⟨n, List.mem_range.mpr hn, rfl⟩
        have hinit : (List.replicate (b0 :: rest).length
            (List.replicate b0.1.length 0))[n]? =
            some (List.replicate b0.1.length 0) := by
          rw [List.getElem?_replicate, if_pos hn]
        have h := applyWrites_getElem_of_mem [] _ _ _ hnd hmemw _ _ hinit
        rw [h, addInto_replicate_zero _ _ (hshape _ hmemb) (hbytes _ hmemb)]
        rw [List.getElem?_map, List.getElem?_eq_getElem hn]
        rw [List.getD_eq_getElem?_getD, List.getElem?_eq_getElem hn]
        rfl
      · rw [List.getElem?_eq_none (by
          rw [applyWrites_length, List.length_replicate]; omega)]
        rw [List.getElem?_eq_none (by rw [List.length_map]; omega)]
    rw [htensor]
  · simp only [fast_collate_tensor]
    have htensor : applyWrites []
        ((List.range (b0 :: rest).length).map
          (fun i => ((i : Nat), fun r => copyInto r (((b0 :: rest).getD i b0).1))))
        (List.replicate (b0 :: rest).length (List.replicate b0.1.length 0)) =
        (b0 :: rest).map (fun b => b.1) := by
      apply List.ext_getElem?
      intro n
      by_cases hn : n < (b0 :: rest).length
      · have hmemb : (b0 :: rest).getD n b0 ∈ b0 :: rest := getD_mem b0 hn
        have hmemw : ((n : Nat),
            (fun r => copyInto r (((b0 :: rest).getD n b0).1))) ∈
            (List.range (b0 :: rest).length).map
              (fun i => ((i : Nat),
                fun r => copyInto r (((b0 :: rest).getD i b0).1))) :=
          List.mem_map.mpr ⟨n, List.mem_range.mpr hn, rfl⟩
        have hinit : (List.replicate (b0 :: rest).length
            (List.replicate b0.1.length 0))[n]? =
            some (List.replicate b0.1.length 0) := by
          rw [List.getElem?_replicate, if_pos hn]
        have h := applyWrites_getElem_of_mem [] _ _ _ hndc hmemw _ _ hinit
        rw [h, copyInto_bytes _ _ (hbytes _ hmemb)]
        rw [List.getElem?_map, List.getElem?_eq_getElem hn]
        rw [List.getD_eq_getElem?_getD, List.getElem?_eq_getElem hn]
        rfl
      · rw [List.getElem?_eq_none (by
          rw [applyWrites_length, List.length_replicate]; omega)]
        rw [List.getElem?_eq_none (by rw [List.length_map]; omega)]
    rw [htensor]

/-- C9 witness: the amended theorem applied to a concrete two-sample
batch. -/
theorem claim_C9_amended_witness :
    fast_collate_np [([1, 2], 7), ([3, 4], 9)] =
      some ([[1, 2], [3, 4]], [7, 9]) ∧
    fast_collate_tensor [([1, 2], 7), ([3, 4], 9)] =
      some ([[1, 2], [3, 4]], [7, 9]) := by
  have h := claim_C9_amended [([1, 2], 7), ([3, 4], 9)] ([1, 2], 7)
    [([3, 4], 9)] rfl (by decide) (by decide)
  exact ⟨h.1, h.2⟩
